import Mathlib

/-
Verification of the sampling core of the anvil repository
(src/anvil/sample.py): the Metropolis-Hastings batch sampler
`sample_batch`, the autocorrelation estimator `chain_autocorrelation`,
and the length derivation of `sample`.

Modelling conventions:
- Python floats are modelled by `PyFloat`: a finite real value or one of
  the IEEE non-finite values +inf, -inf, nan.  `math.exp` is modelled by
  the exact real exponential on finite values (no float overflow or
  rounding); comparisons with nan are false, as in IEEE.
- The external model and action are black boxes (spec section 6): the
  proposal configurations `phi` and the combined `log_ratio` vector are
  inputs of the embedding, as is the stream `u` of uniform draws.
- Exact rational arithmetic stands in for float32 arithmetic in the
  autocorrelation accumulator (all its values are small integer counts).
- Python/torch runtime failures are explicit `Err` values returned in an
  `Except`: the ValueError at sample.py line 62, torch's RuntimeError on
  a negative tensor dimension, torch's RuntimeError on a shape mismatch
  in a slice assignment, and Python's ZeroDivisionError.
-/

/-- Model of a Python float: a finite value (idealised as a real), or one
of the IEEE special values. -/
inductive PyFloat : Type
  | val (x : ℝ)
  | posInf
  | negInf
  | nan

/-- IEEE comparison `a < b` as used by Python's builtin min/max loops:
any comparison involving nan is false. -/
noncomputable def PyFloat.lt : PyFloat → PyFloat → Bool
  | PyFloat.nan, _ => false
  | _, PyFloat.nan => false
  | PyFloat.negInf, PyFloat.negInf => false
  | PyFloat.negInf, _ => true
  | PyFloat.posInf, _ => false
  | PyFloat.val _, PyFloat.negInf => false
  | PyFloat.val _, PyFloat.posInf => true
  | PyFloat.val x, PyFloat.val y => decide (x < y)

/-- IEEE subtraction `a - b` on Python floats. -/
noncomputable def PyFloat.sub : PyFloat → PyFloat → PyFloat
  | PyFloat.nan, _ => PyFloat.nan
  | _, PyFloat.nan => PyFloat.nan
  | PyFloat.posInf, PyFloat.posInf => PyFloat.nan
  | PyFloat.posInf, _ => PyFloat.posInf
  | PyFloat.negInf, PyFloat.negInf => PyFloat.nan
  | PyFloat.negInf, _ => PyFloat.negInf
  | PyFloat.val _, PyFloat.posInf => PyFloat.negInf
  | PyFloat.val _, PyFloat.negInf => PyFloat.posInf
  | PyFloat.val x, PyFloat.val y => PyFloat.val (x - y)

/-- Model of `math.exp`: the exact real exponential on finite values
(idealised: float overflow to inf is not modelled), exp(-inf) = 0,
exp(+inf) = +inf, exp(nan) = nan. -/
noncomputable def PyFloat.exp : PyFloat → PyFloat
  | PyFloat.nan => PyFloat.nan
  | PyFloat.posInf => PyFloat.posInf
  | PyFloat.negInf => PyFloat.val 0
  | PyFloat.val x => PyFloat.val (Real.exp x)

/-- Model of `math.isfinite`. -/
def PyFloat.isFinite : PyFloat → Bool
  | PyFloat.val _ => true
  | _ => false

/-- Python builtin `min(seq)`: start from the first element, replace the
running minimum whenever a later element compares `<` to it (so nan
entries after the first are skipped, and a leading nan is sticky).
Python raises on an empty sequence; that case is unreachable here
(`log_ratio` has `batch_size + 1 ≥ 1` entries) and is mapped to nan. -/
noncomputable def pyMin (l : List PyFloat) : PyFloat :=
  match l with
  | [] => PyFloat.nan
  | x :: xs => xs.foldl (fun m y => if PyFloat.lt y m then y else m) x

/-- Python builtin `max(seq)`, analogously (`y > m` is `m < y`). -/
noncomputable def pyMax (l : List PyFloat) : PyFloat :=
  match l with
  | [] => PyFloat.nan
  | x :: xs => xs.foldl (fun m y => if PyFloat.lt m y then y else m) x

/-- Python two-argument `min(a, b)`: returns `b` if `b < a` else `a`
(so `min(1, nan) = 1`). -/
noncomputable def pyMinPair (a b : PyFloat) : PyFloat :=
  if PyFloat.lt b a then b else a

/-- The acceptance condition of sample.py line 66:
`condition = min(1, exp(float(log_ratio[i] - log_ratio[j])))`,
with first argument the current state's log-ratio and second the
proposal's. -/
noncomputable def condition (lri lrj : PyFloat) : PyFloat :=
  pyMinPair (PyFloat.val 1) (PyFloat.exp (PyFloat.sub lri lrj))

/-- The acceptance test of sample.py line 67: `u <= condition`, where
`condition` may be a non-finite float (u <= nan is false). -/
noncomputable def pyLe (u : ℝ) : PyFloat → Bool
  | PyFloat.nan => false
  | PyFloat.posInf => true
  | PyFloat.negInf => false
  | PyFloat.val x => decide (u ≤ x)

/-- One accept/reject decision of sample.py lines 66-67: the proposal at
index `j` is accepted from current index `i` iff the uniform draw
`u j` satisfies `u j <= condition`.  Out-of-range accesses into
`log_ratio` (unreachable when `log_ratio` has `batch_size + 1` entries)
default to nan. -/
noncomputable def mhDecision (log_ratio : List PyFloat) (u : ℕ → ℝ) (i j : ℕ) : Bool :=
  pyLe (u j) (condition (log_ratio.getD i PyFloat.nan) (log_ratio.getD j PyFloat.nan))

/-- The sequential walk of sample.py lines 64-73, parameterised by the
accept/reject decision `dec i j`: from current index `i` and proposal
index `j`, with `n` proposals left, produce the recorded chain indices
and the accept/reject history. -/
def walkGo (dec : ℕ → ℕ → Bool) (i j : ℕ) : ℕ → List ℕ × List Bool
  | 0 => ([], [])
  | n + 1 =>
    if dec i j then
      (j :: (walkGo dec j (j + 1) n).1, true :: (walkGo dec j (j + 1) n).2)
    else
      (i :: (walkGo dec i (j + 1) n).1, false :: (walkGo dec i (j + 1) n).2)

/-- The full walk: cursor starts at index 0, proposals are indices
1 .. batchSize. -/
def mhWalk (dec : ℕ → ℕ → Bool) (batchSize : ℕ) : List ℕ × List Bool :=
  walkGo dec 0 1 batchSize

/-- Runtime failures of the Python code, plus the error named by the
spec.  `invalidConfiguration` is modelled from the spec: spec section 7
names an InvalidConfiguration error for bad `batch_size`,
`target_length` or `sample_interval`; no such check or error exists
anywhere in src/anvil/sample.py.  The remaining constructors model the
failures the source can actually hit: `couldRunIntoNans` is the
ValueError of sample.py line 62, `negativeDimension` is torch's
RuntimeError when a tensor is created with a negative size,
`shapeMismatch` is torch's RuntimeError when a slice assignment's shapes
disagree, and `zeroDivision` is Python's ZeroDivisionError. -/
inductive Err : Type
  | couldRunIntoNans
  | negativeDimension
  | shapeMismatch
  | zeroDivision
  | invalidConfiguration
deriving DecidableEq

/-- Line 54-55 of sample.py: `if current_state is not None: phi[0] = current_state`. -/
def phiCurrent {α : Type} (phi : List α) : Option α → List α
  | some s => phi.set 0 s
  | none => phi

/-- Embedding of `sample_batch` (sample.py lines 49-74).  The external
model and action are black boxes, so the proposal configurations `phi`
(the result of `loaded_model.inverse_map` on `batch_size + 1` noise
vectors) and the vector `log_ratio = log_ptilde + action(phi)` are taken
as inputs, together with the stream `u` of uniform draws.  In source
order: `torch.randn((batch_size + 1, n))` fails on a negative dimension;
`torch.zeros(batch_size)` (line 57) fails on a negative dimension; the
global sanity check of line 61 raises the ValueError of line 62 when
`exp(min(log_ratio) - max(log_ratio))` is not finite; otherwise the
sequential walk runs and the chain `phi[chain_indices]` and the history
are returned. -/
noncomputable def sample_batch {α : Type} [Inhabited α] (phi : List α)
    (log_ratio : List PyFloat) (u : ℕ → ℝ) (batch_size : ℤ)
    (current_state : Option α) : Except Err (List α × List Bool) :=
  if batch_size + 1 < 0 then Except.error Err.negativeDimension
  else
    if batch_size < 0 then Except.error Err.negativeDimension
    else
      if (PyFloat.exp (PyFloat.sub (pyMin log_ratio) (pyMax log_ratio))).isFinite then
        Except.ok
          ((mhWalk (mhDecision log_ratio u) batch_size.toNat).1.map
            (fun k => (phiCurrent phi current_state).getD k default),
           (mhWalk (mhDecision log_ratio u) batch_size.toNat).2)
      else Except.error Err.couldRunIntoNans

/-- Decidable equality of results (used to evaluate the embedding on
concrete inputs). -/
instance {ε α : Type} [DecidableEq ε] [DecidableEq α] : DecidableEq (Except ε α) := fun x y =>
  match x, y with
  | Except.error a, Except.error b =>
      decidable_of_iff (a = b) ⟨congrArg Except.error, fun h => by injection h⟩
  | Except.error _, Except.ok _ => Decidable.isFalse (fun h => Except.noConfusion h)
  | Except.ok _, Except.error _ => Decidable.isFalse (fun h => Except.noConfusion h)
  | Except.ok a, Except.ok b =>
      decidable_of_iff (a = b) ⟨congrArg Except.ok, fun h => by injection h⟩

/-- Model of `torch.arange(n, 0, -1)`: the list [n, n-1, ..., 1].  Its
entries are integer counts; the float32 arithmetic of the source is
exact on them (idealised). -/
def arangeDesc (n : ℕ) : List ℤ :=
  (List.range n).map (fun k => ((n - k : ℕ) : ℤ))

/-- Model of the slice assignment of sample.py lines 156-158:
`autocorrelations[1 : c + 1] += torch.arange(c, 0, -1)`.  Position
`t` with `1 ≤ t ≤ c` receives `arange(c, 0, -1)[t - 1]`; torch raises a
RuntimeError when the slice is shorter than the right-hand side, i.e.
when `c + 1` exceeds the accumulator length. -/
def sliceAddFrom1 (acc : List ℤ) (c : ℕ) : Except Err (List ℤ) :=
  if acc.length < c + 1 then Except.error Err.shapeMismatch
  else Except.ok ((List.range acc.length).map
    (fun t => acc.getD t 0 + if 1 ≤ t ∧ t ≤ c then (arangeDesc c).getD (t - 1) 0 else 0))

/-- The accumulation loop of sample.py lines 151-165, carrying the
accumulator and the current `consecutive_rejections` count `c`: an
accepted step flushes a positive run into the accumulator and resets the
count, a rejected step increments the count, and a trailing run is
flushed at the end. -/
def accumGo (acc : List ℤ) (c : ℕ) : List Bool → Except Err (List ℤ)
  | [] => if 0 < c then sliceAddFrom1 acc c else Except.ok acc
  | b :: rest =>
    if b then
      if 0 < c then
        match sliceAddFrom1 acc c with
        | Except.ok acc2 => accumGo acc2 0 rest
        | Except.error e => Except.error e
      else accumGo acc 0 rest
    else accumGo acc (c + 1) rest

/-- The autocorrelation accumulator of `chain_autocorrelation`
(sample.py lines 149-165): a zero accumulator of length `N + 1`
(`torch.zeros(N + 1)`, "+1 in case 100% rejected") run through the
rejection-run accumulation loop over the history. -/
def autocorrelations (history : List Bool) : Except Err (List ℤ) :=
  accumGo (List.replicate (history.length + 1) 0) 0 history

/-- The integrated autocorrelation time of sample.py lines 168-170:
`0.5 + sum(autocorrelations / arange(N + 1, 0, -1))` (elementwise
division of the length-(N+1) accumulator by [N+1, N, ..., 1], computed
exactly in the rationals). -/
def tauInt (history : List Bool) : Except Err ℚ :=
  match autocorrelations history with
  | Except.ok ac =>
      Except.ok (1 / 2 + (List.zipWith (fun (a b : ℤ) => (a : ℚ) / (b : ℚ)) ac
        (arangeDesc (history.length + 1))).sum)
  | Except.error e => Except.error e

/-- The sampling interval of sample.py line 173:
`ceil(2 * integrated_autocorrelation)`. -/
def chain_autocorrelation (history : List Bool) : Except Err ℤ :=
  match tauInt history with
  | Except.ok t => Except.ok (Int.ceil (2 * t))
  | Except.error e => Except.error e

/-- The lengths of the maximal runs of consecutive `false` entries, in
order, carrying the length `c` of the run in progress (used to state
what the accumulation loop computes). -/
def rejRunsGo (c : ℕ) : List Bool → List ℕ
  | [] => if 0 < c then [c] else []
  | b :: rest =>
    if b then
      if 0 < c then c :: rejRunsGo 0 rest else rejRunsGo 0 rest
    else rejRunsGo (c + 1) rest

/-- The maximal rejection-run lengths of a history. -/
def rejRuns (history : List Bool) : List ℕ :=
  rejRunsGo 0 history

/-- The contribution of one maximal rejection run of length `L` to
accumulator entry `t`: `L - t + 1` when `1 ≤ t ≤ L`, else nothing. -/
def runContrib (t L : ℕ) : ℤ :=
  if 1 ≤ t ∧ t ≤ L then ((L - t + 1 : ℕ) : ℤ) else 0

/-- Follows the spec's words (spec section 4.3), for comparison with
`tauInt`: "rho[tau] = autocorrelations[tau] / (N - tau) for each lag tau
up to N" and "tau_int = 0.5 + sum over tau = 1..N of rho[tau]".  (At
tau = N the spec's denominator is zero; rational division by zero is 0.) -/
def tauIntSpec (ac : List ℤ) (N : ℕ) : ℚ :=
  1 / 2 + ∑ t in Finset.Icc 1 N, (ac.getD t 0 : ℚ) / ((N - t : ℕ) : ℚ)

/-- Python `ceil(a / b)` on integers (exact: the float division of the
source is exact at these magnitudes). -/
def pyCeilDiv (a b : ℤ) : ℤ :=
  Int.ceil ((a : ℚ) / (b : ℚ))

/-- The batch-size derivation of `sample` (sample.py lines 214-222):
`batch_size = min(target_length, 10000)`;
`dec_samp_per_batch = ceil(batch_size / sample_interval)` (a
ZeroDivisionError when `sample_interval = 0`);
`batch_size = dec_samp_per_batch * sample_interval`;
`Nbatches = ceil(target_length / dec_samp_per_batch)` (a
ZeroDivisionError when `dec_samp_per_batch = 0`);
`actual_length = dec_samp_per_batch * Nbatches`; and the allocation
`torch.empty((actual_length, n))` fails on a negative length.  Returns
(dec_samp_per_batch, batch_size, Nbatches, actual_length). -/
def sample_lengths (target_length sample_interval : ℤ) :
    Except Err (ℤ × ℤ × ℤ × ℤ) :=
  if sample_interval = 0 then Except.error Err.zeroDivision
  else
    if pyCeilDiv (min target_length 10000) sample_interval = 0 then
      Except.error Err.zeroDivision
    else
      if pyCeilDiv (min target_length 10000) sample_interval *
          pyCeilDiv target_length (pyCeilDiv (min target_length 10000) sample_interval) < 0 then
        Except.error Err.negativeDimension
      else
        Except.ok
          (pyCeilDiv (min target_length 10000) sample_interval,
           pyCeilDiv (min target_length 10000) sample_interval * sample_interval,
           pyCeilDiv target_length (pyCeilDiv (min target_length 10000) sample_interval),
           pyCeilDiv (min target_length 10000) sample_interval *
             pyCeilDiv target_length (pyCeilDiv (min target_length 10000) sample_interval))

theorem walkGo_succ_true (dec : ℕ → ℕ → Bool) (i j n : ℕ) (h : dec i j = true) :
    walkGo dec i j (n + 1) =
      (j :: (walkGo dec j (j + 1) n).1, true :: (walkGo dec j (j + 1) n).2) := by
  simp [walkGo, h]

theorem walkGo_succ_false (dec : ℕ → ℕ → Bool) (i j n : ℕ) (h : dec i j = false) :
    walkGo dec i j (n + 1) =
      (i :: (walkGo dec i (j + 1) n).1, false :: (walkGo dec i (j + 1) n).2) := by
  simp [walkGo, h]

theorem walkGo_length (dec : ℕ → ℕ → Bool) :
    ∀ (n i j : ℕ), (walkGo dec i j n).1.length = n ∧ (walkGo dec i j n).2.length = n := by
  intro n
  induction n with
  | zero => intro i j; simp [walkGo]
  | succ n ih =>
    intro i j
    cases h : dec i j
    · rw [walkGo_succ_false dec i j n h]
      simp [List.length_cons, (ih i (j + 1)).1, (ih i (j + 1)).2]
    · rw [walkGo_succ_true dec i j n h]
      simp [List.length_cons, (ih j (j + 1)).1, (ih j (j + 1)).2]

theorem walkGo_getD_lower (dec : ℕ → ℕ → Bool) :
    ∀ (n i j k : ℕ), i ≤ j → k < n → i ≤ (walkGo dec i j n).1.getD k 0 := by
  intro n
  induction n with
  | zero => intro i j k hij hk; omega
  | succ n ih =>
    intro i j k hij hk
    cases h : dec i j
    · rw [walkGo_succ_false dec i j n h]
      cases k with
      | zero => simp only [List.getD_cons_zero]; exact le_refl i
      | succ k =>
        simp only [List.getD_cons_succ]
        exact ih i (j + 1) k (by omega) (by omega)
    · rw [walkGo_succ_true dec i j n h]
      cases k with
      | zero => simp only [List.getD_cons_zero]; exact hij
      | succ k =>
        simp only [List.getD_cons_succ]
        exact le_trans hij (ih j (j + 1) k (by omega) (by omega))

theorem walkGo_getD_upper (dec : ℕ → ℕ → Bool) :
    ∀ (n i j k : ℕ), i ≤ j → k < n → (walkGo dec i j n).1.getD k 0 ≤ j + k := by
  intro n
  induction n with
  | zero => intro i j k hij hk; omega
  | succ n ih =>
    intro i j k hij hk
    cases h : dec i j
    · rw [walkGo_succ_false dec i j n h]
      cases k with
      | zero => simp only [List.getD_cons_zero]; omega
      | succ k =>
        simp only [List.getD_cons_succ]
        have := ih i (j + 1) k (by omega) (by omega)
        omega
    · rw [walkGo_succ_true dec i j n h]
      cases k with
      | zero => simp only [List.getD_cons_zero]; omega
      | succ k =>
        simp only [List.getD_cons_succ]
        have := ih j (j + 1) k (by omega) (by omega)
        omega

theorem walkGo_mono (dec : ℕ → ℕ → Bool) :
    ∀ (n i j k m : ℕ), i ≤ j → k ≤ m → m < n →
      (walkGo dec i j n).1.getD k 0 ≤ (walkGo dec i j n).1.getD m 0 := by
  intro n
  induction n with
  | zero => intro i j k m hij hkm hm; omega
  | succ n ih =>
    intro i j k m hij hkm hm
    cases h : dec i j
    · rw [walkGo_succ_false dec i j n h]
      cases k with
      | zero =>
        cases m with
        | zero => exact le_refl _
        | succ m =>
          simp only [List.getD_cons_zero, List.getD_cons_succ]
          exact walkGo_getD_lower dec n i (j + 1) m (by omega) (by omega)
      | succ k =>
        cases m with
        | zero => omega
        | succ m =>
          simp only [List.getD_cons_succ]
          exact ih i (j + 1) k m (by omega) (by omega) (by omega)
    · rw [walkGo_succ_true dec i j n h]
      cases k with
      | zero =>
        cases m with
        | zero => exact le_refl _
        | succ m =>
          simp only [List.getD_cons_zero, List.getD_cons_succ]
          exact walkGo_getD_lower dec n j (j + 1) m (by omega) (by omega)
      | succ k =>
        cases m with
        | zero => omega
        | succ m =>
          simp only [List.getD_cons_succ]
          exact ih j (j + 1) k m (by omega) (by omega) (by omega)

theorem walkGo_reject (dec : ℕ → ℕ → Bool) :
    ∀ (n i j k : ℕ), k < n → (walkGo dec i j n).2.getD k true = false →
      (walkGo dec i j n).1.getD k 0 =
        if k = 0 then i else (walkGo dec i j n).1.getD (k - 1) 0 := by
  intro n
  induction n with
  | zero => intro i j k hk; omega
  | succ n ih =>
    intro i j k hk hrej
    cases h : dec i j
    · rw [walkGo_succ_false dec i j n h] at hrej ⊢
      cases k with
      | zero => simp
      | succ k =>
        simp only [List.getD_cons_succ] at hrej
        have hg := ih i (j + 1) k (by omega) hrej
        cases k with
        | zero =>
          simp only [List.getD_cons_succ, List.getD_cons_zero]
          simp only [if_pos rfl] at hg
          simpa using hg
        | succ k =>
          simp only [List.getD_cons_succ]
          simp only [if_neg (Nat.succ_ne_zero k)] at hg
          simpa using hg
    · rw [walkGo_succ_true dec i j n h] at hrej ⊢
      cases k with
      | zero =>
        simp only [List.getD_cons_zero] at hrej
        exact Bool.noConfusion hrej
      | succ k =>
        simp only [List.getD_cons_succ] at hrej
        have hg := ih j (j + 1) k (by omega) hrej
        cases k with
        | zero =>
          simp only [List.getD_cons_succ, List.getD_cons_zero]
          simp only [if_pos rfl] at hg
          simpa using hg
        | succ k =>
          simp only [List.getD_cons_succ]
          simp only [if_neg (Nat.succ_ne_zero k)] at hg
          simpa using hg

/-- C6: for every batch_size, whenever sample_batch returns normally it
returns a chain with exactly batch_size entries and a history of the
same length; batch_size = 0 (with the global sanity check passing, and
current_state supplied or not) returns an empty chain and history. -/
theorem claim6_theorem :
    (∀ {α : Type} [Inhabited α] (phi : List α) (log_ratio : List PyFloat) (u : ℕ → ℝ)
      (batch_size : ℤ) (current_state : Option α) (chain : List α) (history : List Bool),
      sample_batch phi log_ratio u batch_size current_state = Except.ok (chain, history) →
      0 ≤ batch_size ∧ (chain.length : ℤ) = batch_size ∧ (history.length : ℤ) = batch_size) ∧
    (∀ {α : Type} [Inhabited α] (phi : List α) (log_ratio : List PyFloat) (u : ℕ → ℝ)
      (current_state : Option α),
      (PyFloat.exp (PyFloat.sub (pyMin log_ratio) (pyMax log_ratio))).isFinite = true →
      sample_batch phi log_ratio u 0 current_state = Except.ok ([], [])) := by
  constructor
  · intro α _ phi lr u bs cs chain history h
    rw [sample_batch] at h
    by_cases h1 : bs + 1 < 0
    · rw [if_pos h1] at h; exact absurd h (by simp)
    rw [if_neg h1] at h
    by_cases h2 : bs < 0
    · rw [if_pos h2] at h; exact absurd h (by simp)
    rw [if_neg h2] at h
    by_cases h3 : (PyFloat.exp (PyFloat.sub (pyMin lr) (pyMax lr))).isFinite = true
    · rw [if_pos h3] at h
      injection h with h4
      injection h4 with hc hh
      refine ⟨by omega, ?_, ?_⟩
      · rw [← hc, List.length_map, mhWalk, (walkGo_length (mhDecision lr u) bs.toNat 0 1).1,
          Int.toNat_of_nonneg (by omega)]
      · rw [← hh, mhWalk, (walkGo_length (mhDecision lr u) bs.toNat 0 1).2,
          Int.toNat_of_nonneg (by omega)]
    · rw [if_neg h3] at h; exact absurd h (by simp)
  · intro α _ phi lr u cs hfin
    rw [sample_batch, if_neg (by omega), if_neg (by omega), if_pos hfin]
    simp [mhWalk, walkGo]

/-- C6 witness: batch_size = 0 on a concrete input returns the empty
chain and history, of length 0. -/
theorem claim6_witness :
    sample_batch [(0 : ℚ)] [PyFloat.val 0] (fun _ => (0 : ℝ)) 0 none = Except.ok ([], []) ∧
    (0 : ℤ) ≤ 0 ∧ (([] : List ℚ).length : ℤ) = 0 ∧ (([] : List Bool).length : ℤ) = 0 :=
  ⟨rfl, claim6_theorem.1 [(0 : ℚ)] [PyFloat.val 0] (fun _ => (0 : ℝ)) 0 none [] [] rfl⟩

/-- C9: in every batch, the recorded chain indices are non-decreasing,
the index at position k is at most k + 1, and a rejected step repeats
the previously recorded index (position 0 repeats the initial state,
index 0).  Together these say the walk never returns to a candidate
drawn before the most recent acceptance. -/
theorem claim9_theorem (dec : ℕ → ℕ → Bool) (batchSize : ℕ) :
    (∀ k m, k ≤ m → m < batchSize →
      (mhWalk dec batchSize).1.getD k 0 ≤ (mhWalk dec batchSize).1.getD m 0) ∧
    (∀ k, k < batchSize → (mhWalk dec batchSize).1.getD k 0 ≤ k + 1) ∧
    (∀ k, k < batchSize → (mhWalk dec batchSize).2.getD k true = false →
      (mhWalk dec batchSize).1.getD k 0 =
        if k = 0 then 0 else (mhWalk dec batchSize).1.getD (k - 1) 0) := by
  simp only [mhWalk]
  refine ⟨?_, ?_, ?_⟩
  · intro k m hkm hm
    exact walkGo_mono dec batchSize 0 1 k m (by omega) hkm hm
  · intro k hk
    have := walkGo_getD_upper dec batchSize 0 1 k (by omega) hk
    omega
  · intro k hk h
    exact walkGo_reject dec batchSize 0 1 k hk h

/-- C9 witness: the invariants evaluated on concrete two-step walks. -/
theorem claim9_witness :
    (mhWalk (fun _ _ => true) 2).1.getD 0 0 ≤ (mhWalk (fun _ _ => true) 2).1.getD 1 0 ∧
    (mhWalk (fun _ _ => true) 2).1.getD 1 0 ≤ 1 + 1 ∧
    (mhWalk (fun _ _ => false) 2).1.getD 1 0 =
      if 1 = 0 then 0 else (mhWalk (fun _ _ => false) 2).1.getD (1 - 1) 0 :=
  ⟨(claim9_theorem (fun _ _ => true) 2).1 0 1 (by omega) (by omega),
   (claim9_theorem (fun _ _ => true) 2).2.1 1 (by omega),
   (claim9_theorem (fun _ _ => false) 2).2.2 1 (by omega) (by decide)⟩

/-- C1 counterexample: at log_ratio[i] = 0, log_ratio[j] = 1 the
claim's premise log_ratio[j] ≥ log_ratio[i] holds, yet the acceptance
condition is exp(-1), not 1, and the uniform draw u = 1/2 rejects the
proposal, so acceptance does depend on the draw. -/
theorem claim1_counterexample :
    (0 : ℝ) ≤ 1 ∧
    condition (PyFloat.val 0) (PyFloat.val 1) ≠ PyFloat.val 1 ∧
    pyLe (1 / 2) (condition (PyFloat.val 0) (PyFloat.val 1)) = false := by
  have hlt : Real.exp (0 - 1) < 1 := by
    rw [show (0 : ℝ) - 1 = -1 by norm_num]
    calc Real.exp (-1) < Real.exp 0 := Real.exp_lt_exp.mpr (by norm_num)
    _ = 1 := Real.exp_zero
  have hhalf : Real.exp (0 - 1) < 1 / 2 := by
    rw [show (0 : ℝ) - 1 = -1 by norm_num, Real.exp_neg]
    have h2 : (2 : ℝ) < Real.exp 1 := lt_trans (by norm_num) Real.exp_one_gt_d9
    calc (Real.exp 1)⁻¹ < 2⁻¹ := inv_strictAnti₀ (by norm_num) h2
    _ = 1 / 2 := by norm_num
  have hcond : condition (PyFloat.val 0) (PyFloat.val 1) = PyFloat.val (Real.exp (0 - 1)) := by
    simp only [condition, PyFloat.sub, PyFloat.exp, pyMinPair, PyFloat.lt]
    rw [decide_eq_true hlt]
    simp
  refine ⟨by norm_num, ?_, ?_⟩
  · rw [hcond]
    intro heq
    injection heq with h
    exact absurd h (ne_of_lt hlt)
  · rw [hcond]
    simp only [pyLe]
    exact decide_eq_false (not_le.mpr hhalf)

/-- C1 amended: with the inequality in the direction the code actually
implements, for every current index i and proposal index j with finite
log-ratios, if log_ratio[j] ≤ log_ratio[i] then the acceptance condition
min(1, exp(log_ratio[i] - log_ratio[j])) equals 1 and the walk's
decision accepts for any uniform draw u j in [0, 1). -/
theorem claim1_theorem (log_ratio : List PyFloat) (u : ℕ → ℝ) (i j : ℕ) (a b : ℝ)
    (hi : log_ratio.getD i PyFloat.nan = PyFloat.val a)
    (hj : log_ratio.getD j PyFloat.nan = PyFloat.val b)
    (hba : b ≤ a) (hu0 : 0 ≤ u j) (hu1 : u j < 1) :
    condition (log_ratio.getD i PyFloat.nan) (log_ratio.getD j PyFloat.nan) =
      PyFloat.val 1 ∧
    mhDecision log_ratio u i j = true := by
  have hexp : (1 : ℝ) ≤ Real.exp (a - b) := by
    calc (1 : ℝ) = Real.exp 0 := Real.exp_zero.symm
    _ ≤ Real.exp (a - b) := Real.exp_le_exp.mpr (by linarith)
  have hcond : condition (PyFloat.val a) (PyFloat.val b) = PyFloat.val 1 := by
    simp only [condition, PyFloat.sub, PyFloat.exp, pyMinPair, PyFloat.lt]
    rw [decide_eq_false (not_lt.mpr hexp)]
    simp
  rw [hi, hj]
  refine ⟨hcond, ?_⟩
  rw [mhDecision, hi, hj, hcond]
  simp only [pyLe]
  exact decide_eq_true (le_of_lt hu1)

/-- C1 witness: log_ratio = [1, 0], i = 0, j = 1, u = 1/2: the
condition is 1 and the proposal is accepted. -/
theorem claim1_witness :
    condition ([PyFloat.val 1, PyFloat.val 0].getD 0 PyFloat.nan)
      ([PyFloat.val 1, PyFloat.val 0].getD 1 PyFloat.nan) = PyFloat.val 1 ∧
    mhDecision [PyFloat.val 1, PyFloat.val 0] (fun _ => (1 / 2 : ℝ)) 0 1 = true :=
  claim1_theorem [PyFloat.val 1, PyFloat.val 0] (fun _ => (1 / 2 : ℝ)) 0 1 1 0 rfl rfl
    (by norm_num) (by norm_num) (by norm_num)

/-- C4: for every batch (any proposals, any stream of uniform draws,
any current state, batch_size ≥ 0), when exp(min(log_ratio) -
max(log_ratio)) is not finite, sample_batch raises the
numerical-instability ValueError: the result is the error for every
random stream u, so no accept/reject decision is consulted and no chain
or history is returned. -/
theorem claim4_theorem {α : Type} [Inhabited α] (phi : List α) (log_ratio : List PyFloat)
    (u : ℕ → ℝ) (batch_size : ℤ) (current_state : Option α) (hbs : 0 ≤ batch_size)
    (hfin : (PyFloat.exp (PyFloat.sub (pyMin log_ratio) (pyMax log_ratio))).isFinite = false) :
    sample_batch phi log_ratio u batch_size current_state =
      Except.error Err.couldRunIntoNans := by
  rw [sample_batch, if_neg (by omega), if_neg (by omega), if_neg (by simp [hfin])]

/-- C4 witness: a log_ratio vector with a leading nan makes the sanity
check non-finite, and the batch aborts with the ValueError. -/
theorem claim4_witness :
    (0 : ℤ) ≤ 1 ∧
    (PyFloat.exp (PyFloat.sub (pyMin [PyFloat.nan, PyFloat.val 0])
      (pyMax [PyFloat.nan, PyFloat.val 0]))).isFinite = false ∧
    sample_batch [(0 : ℚ), 0] [PyFloat.nan, PyFloat.val 0] (fun _ => (0 : ℝ)) 1 none =
      Except.error Err.couldRunIntoNans :=
  ⟨by norm_num, rfl,
   claim4_theorem [(0 : ℚ), 0] [PyFloat.nan, PyFloat.val 0] (fun _ => (0 : ℝ)) 1 none
     (by norm_num) rfl⟩

/-- C3 counterexample: no InvalidConfiguration validation exists.  With
sample_interval = -3 < 1 the derivation of sample raises no error at all
(it returns dec_samp_per_batch = -3, batch_size = 9, Nbatches = -3,
actual_length = 9), and sample_batch with batch_size = -1 < 0 fails with
torch's negative-dimension RuntimeError at `torch.zeros(batch_size)`,
after the proposals were already generated, not with an
InvalidConfiguration before any sampling work. -/
theorem claim3_counterexample :
    sample_lengths 10 (-3) = Except.ok (-3, 9, -3, 9) ∧
    sample_batch ([] : List ℚ) [] (fun _ => (0 : ℝ)) (-1) none =
      Except.error Err.negativeDimension := by
  constructor
  · have hmin : min (10 : ℤ) 10000 = 10 := by norm_num
    have hd : pyCeilDiv 10 (-3) = -3 := by norm_num [pyCeilDiv, Int.ceil_eq_iff]
    rw [sample_lengths, hmin, hd, hd]
    norm_num
  · rfl

/-- C3 amended: the code performs none of the claimed validation and
never raises an InvalidConfiguration error.  Instead: sample_batch with
batch_size = -1 fails with torch's negative-dimension error during
setup; sample with target_length = 0 or with sample_interval = 0 fails
with a ZeroDivisionError in the batch-size derivation; and sample with a
negative sample_interval raises no error at all. -/
theorem claim3_theorem :
    sample_batch ([] : List ℚ) [] (fun _ => (0 : ℝ)) (-1) none =
      Except.error Err.negativeDimension ∧
    sample_lengths 0 5 = Except.error Err.zeroDivision ∧
    sample_lengths 10 0 = Except.error Err.zeroDivision ∧
    sample_lengths 10 (-3) = Except.ok (-3, 9, -3, 9) := by
  refine ⟨rfl, ?_, ?_, ?_⟩
  · have hmin : min (0 : ℤ) 10000 = 0 := by norm_num
    have hd : pyCeilDiv 0 5 = 0 := by norm_num [pyCeilDiv]
    rw [sample_lengths, hmin, hd]
    norm_num
  · rw [sample_lengths]
    norm_num
  · have hmin : min (10 : ℤ) 10000 = 10 := by norm_num
    have hd : pyCeilDiv 10 (-3) = -3 := by norm_num [pyCeilDiv, Int.ceil_eq_iff]
    rw [sample_lengths, hmin, hd, hd]
    norm_num

/-- C5: for target_length ≥ 1 and sample_interval ≥ 1 the derived
actual_length = dec_samp_per_batch * Nbatches is a multiple of
dec_samp_per_batch, is at least target_length, and exceeds it by at most
dec_samp_per_batch - 1; and the concrete scenario target_length = 100,
sample_interval = 7 yields dec_samp_per_batch = 15, batch_size = 105,
Nbatches = 7, actual_length = 105. -/
theorem claim5_theorem :
    (∀ target_length sample_interval : ℤ,
      1 ≤ target_length → 1 ≤ sample_interval →
      ∃ d n, sample_lengths target_length sample_interval =
          Except.ok (d, d * sample_interval, n, d * n) ∧
        1 ≤ d ∧ d ∣ d * n ∧ target_length ≤ d * n ∧ d * n ≤ target_length + d - 1) ∧
    sample_lengths 100 7 = Except.ok (15, 105, 7, 105) := by
  constructor
  · intro t i ht hi
    have hb0 : 1 ≤ min t 10000 := le_min ht (by norm_num)
    have hiQ : (0 : ℚ) < (i : ℚ) := by exact_mod_cast lt_of_lt_of_le zero_lt_one hi
    have hd1 : 1 ≤ pyCeilDiv (min t 10000) i := by
      have hpos : (0 : ℚ) < ((min t 10000 : ℤ) : ℚ) / (i : ℚ) :=
        div_pos (by exact_mod_cast lt_of_lt_of_le zero_lt_one hb0) hiQ
      have h0 : (0 : ℤ) < Int.ceil (((min t 10000 : ℤ) : ℚ) / (i : ℚ)) :=
        Int.lt_ceil.mpr (by exact_mod_cast hpos)
      rw [pyCeilDiv]
      omega
    have hdQ : (0 : ℚ) < ((pyCeilDiv (min t 10000) i : ℤ) : ℚ) := by
      exact_mod_cast lt_of_lt_of_le zero_lt_one hd1
    have hn1 : 1 ≤ pyCeilDiv t (pyCeilDiv (min t 10000) i) := by
      have hpos : (0 : ℚ) < (t : ℚ) / ((pyCeilDiv (min t 10000) i : ℤ) : ℚ) :=
        div_pos (by exact_mod_cast lt_of_lt_of_le zero_lt_one ht) hdQ
      have h0 : (0 : ℤ) < Int.ceil ((t : ℚ) / ((pyCeilDiv (min t 10000) i : ℤ) : ℚ)) :=
        Int.lt_ceil.mpr (by exact_mod_cast hpos)
      rw [pyCeilDiv]
      omega
    have hle : t ≤ pyCeilDiv (min t 10000) i * pyCeilDiv t (pyCeilDiv (min t 10000) i) := by
      have h1 : (t : ℚ) / ((pyCeilDiv (min t 10000) i : ℤ) : ℚ) ≤
          ((pyCeilDiv t (pyCeilDiv (min t 10000) i) : ℤ) : ℚ) := by
        rw [pyCeilDiv]
        exact Int.le_ceil _
      rw [div_le_iff₀ hdQ] at h1
      have h2 : t ≤ pyCeilDiv t (pyCeilDiv (min t 10000) i) * pyCeilDiv (min t 10000) i := by
        exact_mod_cast h1
      exact le_of_le_of_eq h2 (mul_comm _ _)
    have hup : pyCeilDiv (min t 10000) i * pyCeilDiv t (pyCeilDiv (min t 10000) i) ≤
        t + pyCeilDiv (min t 10000) i - 1 := by
      have h1 : ((pyCeilDiv t (pyCeilDiv (min t 10000) i) : ℤ) : ℚ) <
          (t : ℚ) / ((pyCeilDiv (min t 10000) i : ℤ) : ℚ) + 1 := by
        rw [pyCeilDiv]
        exact Int.ceil_lt_add_one _
      have h2 := mul_lt_mul_of_pos_right h1 hdQ
      rw [add_mul, div_mul_cancel₀ _ (ne_of_gt hdQ), one_mul] at h2
      have h3 : pyCeilDiv t (pyCeilDiv (min t 10000) i) * pyCeilDiv (min t 10000) i <
          t + pyCeilDiv (min t 10000) i := by exact_mod_cast h2
      have h4 : pyCeilDiv (min t 10000) i * pyCeilDiv t (pyCeilDiv (min t 10000) i) <
          t + pyCeilDiv (min t 10000) i := by
        rw [mul_comm]
        exact h3
      omega
    refine ⟨pyCeilDiv (min t 10000) i, pyCeilDiv t (pyCeilDiv (min t 10000) i), ?_, hd1,
      dvd_mul_right _ _, hle, hup⟩
    · rw [sample_lengths, if_neg (by omega : ¬ i = 0), if_neg (by omega), if_neg (by omega)]
  · have hmin : min (100 : ℤ) 10000 = 100 := by norm_num
    have h1 : pyCeilDiv 100 7 = 15 := by norm_num [pyCeilDiv, Int.ceil_eq_iff]
    have h2 : pyCeilDiv 100 15 = 7 := by norm_num [pyCeilDiv, Int.ceil_eq_iff]
    rw [sample_lengths, hmin, h1, h2]
    norm_num

/-- C5 witness: the general bounds instantiated at target_length = 100,
sample_interval = 7. -/
theorem claim5_witness :
    ∃ d n, sample_lengths 100 7 = Except.ok (d, d * 7, n, d * n) ∧
      1 ≤ d ∧ d ∣ d * n ∧ 100 ≤ d * n ∧ d * n ≤ 100 + d - 1 :=
  claim5_theorem.1 100 7 (by norm_num) (by norm_num)

theorem arangeDesc_getD (n k : ℕ) (hk : k < n) :
    (arangeDesc n).getD k 0 = ((n - k : ℕ) : ℤ) := by
  rw [arangeDesc, List.getD_eq_getElem?_getD, List.getElem?_map, List.getElem?_range hk]
  rfl

theorem sliceAddFrom1_ok (acc : List ℤ) (c : ℕ) (h : c + 1 ≤ acc.length) :
    ∃ out, sliceAddFrom1 acc c = Except.ok out ∧ out.length = acc.length ∧
      ∀ t, out.getD t 0 = acc.getD t 0 + runContrib t c := by
  refine ⟨(List.range acc.length).map
      (fun t => acc.getD t 0 + if 1 ≤ t ∧ t ≤ c then (arangeDesc c).getD (t - 1) 0 else 0),
    by rw [sliceAddFrom1, if_neg (by omega)], by simp, ?_⟩
  intro t
  by_cases hlt : t < acc.length
  · rw [List.getD_eq_getElem?_getD, List.getElem?_map, List.getElem?_range hlt]
    simp only [Option.map_some', Option.getD_some]
    congr 1
    rw [runContrib]
    by_cases hc : 1 ≤ t ∧ t ≤ c
    · rw [if_pos hc, if_pos hc, arangeDesc_getD c (t - 1) (by omega)]
      congr 1
      omega
    · rw [if_neg hc, if_neg hc]
  · have hge : acc.length ≤ t := by omega
    rw [List.getD_eq_default _ _ (by simpa using hge), List.getD_eq_default _ _ hge,
      runContrib, if_neg (by omega)]
    simp

theorem accumGo_spec :
    ∀ (hist : List Bool) (acc : List ℤ) (c : ℕ), c + hist.length + 1 ≤ acc.length →
      ∃ ac, accumGo acc c hist = Except.ok ac ∧ ac.length = acc.length ∧
        ∀ t, ac.getD t 0 =
          acc.getD t 0 + ((rejRunsGo c hist).map (fun L => runContrib t L)).sum := by
  intro hist
  induction hist with
  | nil =>
    intro acc c hlen
    simp only [List.length_nil] at hlen
    by_cases hc : 0 < c
    · obtain ⟨out, ho, hl, hp⟩ := sliceAddFrom1_ok acc c (by omega)
      refine ⟨out, ?_, hl, ?_⟩
      · simp only [accumGo]
        rw [if_pos hc, ho]
      · intro t
        rw [hp t]
        simp [rejRunsGo, hc]
    · refine ⟨acc, ?_, rfl, ?_⟩
      · simp only [accumGo]
        rw [if_neg hc]
      · intro t
        simp [rejRunsGo, hc]
  | cons b rest ih =>
    intro acc c hlen
    simp only [List.length_cons] at hlen
    cases b with
    | true =>
      by_cases hc : 0 < c
      · obtain ⟨out, ho, hl, hp⟩ := sliceAddFrom1_ok acc c (by omega)
        obtain ⟨ac, ha, hal, hap⟩ := ih out 0 (by rw [hl]; omega)
        refine ⟨ac, ?_, by rw [hal, hl], ?_⟩
        · simp only [accumGo, if_true]
          rw [if_pos hc, ho]
          exact ha
        · intro t
          rw [hap t, hp t]
          simp only [rejRunsGo, if_pos hc, List.map_cons, List.sum_cons, if_true]
          ring
      · obtain ⟨ac, ha, hal, hap⟩ := ih acc 0 (by omega)
        refine ⟨ac, ?_, hal, ?_⟩
        · simp only [accumGo, if_true]
          rw [if_neg hc]
          exact ha
        · intro t
          rw [hap t]
          simp only [rejRunsGo, if_neg hc, if_true]
    | false =>
      obtain ⟨ac, ha, hal, hap⟩ := ih acc (c + 1) (by omega)
      refine ⟨ac, ?_, hal, ?_⟩
      · simp only [accumGo]
        exact ha
      · intro t
        rw [hap t]
        simp [rejRunsGo]

theorem getD_replicate_zero (n t : ℕ) : (List.replicate n (0 : ℤ)).getD t 0 = 0 := by
  rw [List.getD_eq_getElem?_getD, List.getElem?_replicate]
  split <;> simp

theorem arangeDesc_succ (n : ℕ) :
    arangeDesc (n + 1) = ((n + 1 : ℕ) : ℤ) :: arangeDesc n := by
  rw [arangeDesc, arangeDesc, List.range_succ_eq_map, List.map_cons, List.map_map]
  congr 1
  apply List.map_congr_left
  intro k hk
  have hnk : n + 1 - Nat.succ k = n - k := by omega
  simp [Function.comp, hnk]

theorem zipDivSum :
    ∀ (l : List ℤ) (n : ℕ), l.length = n →
      (List.zipWith (fun (a b : ℤ) => (a : ℚ) / (b : ℚ)) l (arangeDesc n)).sum =
        ∑ t in Finset.range n, (l.getD t 0 : ℚ) / ((n - t : ℕ) : ℚ) := by
  intro l
  induction l with
  | nil =>
    intro n hn
    rw [← hn]
    simp
  | cons x xs ih =>
    intro n hn
    rw [← hn]
    simp only [List.length_cons]
    rw [arangeDesc_succ, List.zipWith_cons_cons, List.sum_cons, ih xs.length rfl,
      Finset.sum_range_succ']
    have hleft : ∀ t ∈ Finset.range xs.length,
        ((x :: xs).getD (t + 1) 0 : ℚ) / ((xs.length + 1 - (t + 1) : ℕ) : ℚ) =
          (xs.getD t 0 : ℚ) / ((xs.length - t : ℕ) : ℚ) := by
      intro t ht
      simp only [List.getD_cons_succ]
      have hnt : xs.length + 1 - (t + 1) = xs.length - t := by omega
      rw [hnt]
    rw [Finset.sum_congr rfl hleft]
    simp only [List.getD_cons_zero, Nat.sub_zero]
    push_cast
    ring

/-- C7: for every history, each accumulator entry at lag t ≥ 1 is the
sum over the maximal rejection runs of length L of the contribution
L - t + 1 (counted when 1 ≤ t ≤ L); and on the history
[true, false, false, true, false] the accumulator is exactly
[0, 3, 1, 0, 0, 0] before normalization. -/
theorem claim7_theorem :
    (∀ (history : List Bool) (ac : List ℤ), autocorrelations history = Except.ok ac →
      ∀ t, 1 ≤ t →
        ac.getD t 0 = ((rejRuns history).map (fun L => runContrib t L)).sum) ∧
    autocorrelations [true, false, false, true, false] = Except.ok [0, 3, 1, 0, 0, 0] := by
  constructor
  · intro history ac h t ht
    obtain ⟨ac2, ha, hal, hap⟩ :=
      accumGo_spec history (List.replicate (history.length + 1) 0) 0 (by simp)
    rw [autocorrelations] at h
    rw [h] at ha
    injection ha with he
    rw [he, hap t, getD_replicate_zero, zero_add, rejRuns]
  · decide

/-- C7 witness: the run-sum formula evaluated on the history [false]
with accumulator [0, 1]. -/
theorem claim7_witness :
    [(0 : ℤ), 1].getD 1 0 = ((rejRuns [false]).map (fun L => runContrib 1 L)).sum :=
  claim7_theorem.1 [false] [0, 1] (by decide) 1 (by omega)

/-- C10: chain_autocorrelation's accumulation is total: for every
history of length N the accumulator exists (no out-of-bounds slice
assignment, including an all-rejected history), has N + 1 entries, and
every normalization denominator in arange(N + 1, 0, -1) is at least 1,
so no division by zero occurs. -/
theorem claim10_theorem (history : List Bool) :
    ∃ ac, autocorrelations history = Except.ok ac ∧ ac.length = history.length + 1 ∧
      (arangeDesc (history.length + 1)).all (fun d => decide (1 ≤ d)) = true := by
  obtain ⟨ac, ha, hal, _⟩ :=
    accumGo_spec history (List.replicate (history.length + 1) 0) 0 (by simp)
  refine ⟨ac, ?_, by rw [hal]; simp, ?_⟩
  · rw [autocorrelations]
    exact ha
  · rw [List.all_eq_true]
    intro d hd
    rw [arangeDesc] at hd
    obtain ⟨k, hk, rfl⟩ := List.mem_map.mp hd
    rw [List.mem_range] at hk
    simp only [decide_eq_true_eq]
    omega

/-- C2 counterexample: on the history [false, true] (N = 2) the code's
integrated autocorrelation time is 1, while the spec's formula
rho[tau] = autocorrelations[tau] / (N - tau) gives 3/2: the code divides
entry tau by N + 1 - tau, not by N - tau. -/
theorem claim2_counterexample :
    autocorrelations [false, true] = Except.ok [0, 1, 0] ∧
    tauInt [false, true] = Except.ok 1 ∧
    tauIntSpec [0, 1, 0] 2 = 3 / 2 ∧
    Except.ok (tauIntSpec [0, 1, 0] 2) ≠ tauInt [false, true] := by
  have h1 : autocorrelations [false, true] = Except.ok [0, 1, 0] := by decide
  have h2 : tauInt [false, true] = Except.ok 1 := by
    simp [tauInt, h1, arangeDesc, List.range_succ]
    norm_num
  have h3 : tauIntSpec [0, 1, 0] 2 = 3 / 2 := by
    rw [tauIntSpec, Finset.sum_Icc_succ_top (by norm_num), Finset.Icc_self,
      Finset.sum_singleton]
    norm_num
  refine ⟨h1, h2, h3, ?_⟩
  rw [h2, h3]
  intro hcon
  injection hcon with he
  norm_num at he

/-- C2 amended: the accumulator entry at lag 0 is 0, and the integrated
autocorrelation time equals 0.5 plus the sum over tau = 0..N of
autocorrelations[tau] / (N + 1 - tau) (denominator N + 1 - tau, not
N - tau; the tau = 0 term vanishes). -/
theorem claim2_theorem (history : List Bool) (ac : List ℤ)
    (h : autocorrelations history = Except.ok ac) :
    ac.getD 0 0 = 0 ∧
    tauInt history = Except.ok (1 / 2 + ∑ t in Finset.range (history.length + 1),
      (ac.getD t 0 : ℚ) / ((history.length + 1 - t : ℕ) : ℚ)) := by
  obtain ⟨ac2, ha, hal, hap⟩ :=
    accumGo_spec history (List.replicate (history.length + 1) 0) 0 (by simp)
  have h2 := h
  rw [autocorrelations] at h2
  rw [h2] at ha
  injection ha with he
  constructor
  · rw [he, hap 0, getD_replicate_zero, zero_add]
    have hz : ∀ L, runContrib 0 L = 0 := fun L => by rw [runContrib, if_neg (by omega)]
    simp [hz]
  · simp only [tauInt, h]
    rw [zipDivSum ac (history.length + 1) (by rw [he, hal]; simp)]

/-- C2 witness: the amended normalization evaluated on the history
[false, true]. -/
theorem claim2_witness :
    [(0 : ℤ), 1, 0].getD 0 0 = 0 ∧
    tauInt [false, true] = Except.ok (1 / 2 + ∑ t in Finset.range ([false, true].length + 1),
      (([(0 : ℤ), 1, 0].getD t 0 : ℚ)) / (([false, true].length + 1 - t : ℕ) : ℚ)) :=
  claim2_theorem [false, true] [0, 1, 0] (by decide)

/-- C8: for every history the integrated autocorrelation time is at
least 1/2 (it is 0.5 plus a sum of non-negative terms), and the
returned sample_interval = ceil(2 * tau_int) is at least 1. -/
theorem claim8_theorem (history : List Bool) :
    ∃ t : ℚ, tauInt history = Except.ok t ∧ 1 / 2 ≤ t ∧
      chain_autocorrelation history = Except.ok (Int.ceil (2 * t)) ∧
      1 ≤ Int.ceil (2 * t) := by
  obtain ⟨ac, ha, hal, hap⟩ :=
    accumGo_spec history (List.replicate (history.length + 1) 0) 0 (by simp)
  have hauto : autocorrelations history = Except.ok ac := by
    rw [autocorrelations]
    exact ha
  have hnn : ∀ k, 0 ≤ ac.getD k 0 := by
    intro k
    rw [hap k, getD_replicate_zero, zero_add]
    apply List.sum_nonneg
    intro x hx
    obtain ⟨L, hL, rfl⟩ := List.mem_map.mp hx
    rw [runContrib]
    split
    · exact Int.natCast_nonneg _
    · exact le_refl 0
  have hsum : (0 : ℚ) ≤ (List.zipWith (fun (a b : ℤ) => (a : ℚ) / (b : ℚ)) ac
      (arangeDesc (history.length + 1))).sum := by
    rw [zipDivSum ac (history.length + 1) (by rw [hal]; simp)]
    apply Finset.sum_nonneg
    intro t ht
    apply div_nonneg
    · exact_mod_cast hnn t
    · positivity
  refine ⟨1 / 2 + (List.zipWith (fun (a b : ℤ) => (a : ℚ) / (b : ℚ)) ac
      (arangeDesc (history.length + 1))).sum, by simp [tauInt, hauto], by linarith,
    by simp [chain_autocorrelation, tauInt, hauto], ?_⟩
  have h2 : (1 : ℚ) ≤ 2 * (1 / 2 + (List.zipWith (fun (a b : ℤ) => (a : ℚ) / (b : ℚ)) ac
      (arangeDesc (history.length + 1))).sum) := by linarith
  calc (1 : ℤ) = Int.ceil (1 : ℚ) := Int.ceil_one.symm
  _ ≤ _ := Int.ceil_mono h2
